import Mathlib

/-!
# CHOLMOD demo driver (`src/cholmod_demo.cpp`): embedding and verified properties

The development embeds the two pieces of original logic of the demo, the
Matrix Market loader `read_matrix_market` and the driver `main`, as Lean
functions and proves properties of them.

Modelling conventions.

* A text file is the list of its characters; an input stream is the list of
  characters not yet consumed.  The formatted extractions `stream >> int` and
  `stream >> double` of the C++ standard library are modelled on the decimal
  grammar they accept (`extract_int`, `extract_double`).
* Matrix values are exact: the loader produces rationals (the exact value of
  each decimal literal within the range of `double`) and the matrix-vector
  product is stated over an arbitrary commutative ring.  Floating-point
  rounding is not modelled.
* Arithmetic on `int` wraps modulo `2^32`; `int` indices that the code only
  uses as array positions are naturals.
* Exhaustion of memory (`std::bad_alloc`) is not modelled; the exceptions that
  depend on the input alone (`std::length_error`) are.
* The calls into CHOLMOD are external: whether each call succeeds is an input
  of the run (`Env`), and `main` yields the sequence of calls it makes together
  with the way the process ends.
-/

namespace CholmodDemo

/-! ## Data model -/

/-- Structure `Triplet` of the source (lines 17-21): one coordinate entry. -/
structure Triplet (R : Type) where
  row : Int
  col : Int
  val : R
deriving DecidableEq

/-! ## Formatted input -/

/-- Whitespace skipped by a formatted extraction (`std::isspace`, "C" locale). -/
def isspace (c : Char) : Bool :=
  c = ' ' || c = '\t' || c = '\n' || c = '\r' || c.toNat = 11 || c.toNat = 12

/-- Decimal digits `0`..`9`. -/
def isdigit (c : Char) : Bool := decide (48 ≤ c.toNat) && decide (c.toNat ≤ 57)

/-- Value of a run of decimal digits. -/
def digits_value (ds : List Char) : Nat :=
  ds.foldl (fun acc c => 10 * acc + (c.toNat - 48)) 0

/-- Result of one `stream >> int`: the value and the rest of the stream, or a
failure.  A failed conversion stores a value in the target (`0`, or the nearest
bound on overflow); when the stream is exhausted before any character of the
number is seen, the target is left untouched. -/
inductive Extract (α : Type) where
  | ok (v : α) (rest : List Char)
  | fail_stored (v : α)
  | fail_untouched
deriving DecidableEq

/-- Largest value of the C++ type `int`. -/
def INT_MAX : Int := 2147483647

/-- Smallest value of the C++ type `int`. -/
def INT_MIN : Int := -2147483648

/-- Result of an `int` operation whose exact value is `v`: the value itself
when it fits, wrapped modulo `2^32` otherwise (the C++ expression is undefined
there; two's-complement hardware wraps). -/
def wrap_int (v : Int) : Int := (v + 2147483648) % 4294967296 - 2147483648

/-- Least magnitude that rounds to an infinite `double`, `2^1024 - 2^970`:
half a unit in the last place above the largest finite `double`. -/
def DBL_OVERFLOW : Int :=
  179769313486231580793728971405303415079934132710037826936173778980444968292764750946649017977587207096330286416692887910946555547851940402630657488671505820681908902000708383676273854845817711531764475730270069855571366959622842914819860834936475292719074168444365510704342711559699508093042880177904174497792

/-- The literal is out of the range of `double` (it converts to `HUGE_VAL`). -/
def dbl_overflows (v : ℚ) : Bool :=
  decide (mkRat DBL_OVERFLOW 1 ≤ v) || decide (v ≤ mkRat (-DBL_OVERFLOW) 1)

/-- Optional leading sign of a number: `true` for a minus sign. -/
def strip_sign (s : List Char) : Bool × List Char :=
  match s with
  | '-' :: cs => (true, cs)
  | '+' :: cs => (false, cs)
  | _ => (false, s)

/-- Extraction `stream >> int`: skip whitespace, read an optional sign and the
longest run of digits, fail when there is no digit or the value does not fit
in an `int`. -/
def extract_int (s : List Char) : Extract Int :=
  match s.dropWhile isspace with
  | [] => .fail_untouched
  | c :: cs =>
    let sg := strip_sign (c :: cs)
    let ds := sg.2.takeWhile isdigit
    if ds = [] then .fail_stored 0
    else
      let v : Int := if sg.1 then -(digits_value ds : Int) else (digits_value ds : Int)
      if v < INT_MIN then .fail_stored INT_MIN
      else if INT_MAX < v then .fail_stored INT_MAX
      else .ok v (sg.2.dropWhile isdigit)

/-- Exact value `± mant * 10 ^ e` of a decimal literal. -/
def decimal_value (neg : Bool) (mant : Nat) (e : Int) : ℚ :=
  mkRat ((if neg then -(mant : Int) else (mant : Int)) * ((10 ^ e.toNat : Nat) : Int))
    (10 ^ (-e).toNat)

/-- Optional exponent part `e[sign]digits` of a real literal; an exponent
marker without digits makes the conversion fail. -/
def extract_exponent (s : List Char) : Option (Int × List Char) :=
  match s with
  | [] => some (0, [])
  | c :: cs =>
    if c = 'e' ∨ c = 'E' then
      let sg := strip_sign cs
      let ds := sg.2.takeWhile isdigit
      if ds = [] then none
      else some (if sg.1 then -(digits_value ds : Int) else (digits_value ds : Int),
                 sg.2.dropWhile isdigit)
    else some (0, c :: cs)

/-- Optional fraction part `.digits` of a real literal. -/
def extract_fraction (s : List Char) : List Char × List Char :=
  match s with
  | '.' :: cs => (cs.takeWhile isdigit, cs.dropWhile isdigit)
  | _ => ([], s)

/-- Extraction `stream >> double`: skip whitespace, then
`[sign] digits [. digits] [(e|E) [sign] digits]` with at least one digit in the
mantissa; a literal out of the range of `double` makes the extraction fail.
The result is the exact rational value of the literal (not rounded to the
nearest `double`). -/
def extract_double (s : List Char) : Option (ℚ × List Char) :=
  match s.dropWhile isspace with
  | [] => none
  | c :: cs =>
    let sg := strip_sign (c :: cs)
    let ip := sg.2.takeWhile isdigit
    let fr := extract_fraction (sg.2.dropWhile isdigit)
    if ip = [] ∧ fr.1 = [] then none
    else
      match extract_exponent fr.2 with
      | none => none
      | some (e, rest) =>
        let v := decimal_value sg.1 (digits_value (ip ++ fr.1)) (e - fr.1.length)
        if dbl_overflows v then none else some (v, rest)

/-! ## `read_matrix_market` (source lines 27-68) -/

/-- Comment-skipping loop (lines 37-40): `std::getline` is called until a line
is neither empty nor starts with `%`.  The first argument is the line being
read.  The result is the final content of `line` and the unread rest of the
file. -/
def find_header : List Char → List Char → List Char × List Char
  | line, [] => (line, [])
  | line, c :: rest =>
    if c = '\n' then
      if line = [] ∨ line.head? = some '%' then find_header [] rest else (line, rest)
    else find_header (line ++ [c]) rest

/-- Line 45, `header >> n >> m >> nnz`: the values held by `n`, `m` and `nnz`
afterwards, `none` for a variable the extraction chain never wrote (it is still
uninitialised).  After the first failure the stream is in a failed state and
the remaining extractions do nothing. -/
def parse_header (line : List Char) : Option Int × Option Int × Option Int :=
  match extract_int line with
  | .ok n r1 =>
    match extract_int r1 with
    | .ok m r2 =>
      match extract_int r2 with
      | .ok nnz _ => (some n, some m, some nnz)
      | .fail_stored nnz => (some n, some m, some nnz)
      | .fail_untouched => (some n, some m, none)
    | .fail_stored m => (some n, some m, none)
    | .fail_untouched => (some n, none, none)
  | .fail_stored n => (some n, none, none)
  | .fail_untouched => (none, none, none)

/-- Loop of lines 59-62, `while (file >> row >> col >> val) push_back(...)`.
The first argument bounds the number of iterations; `read_matrix_market` passes
a bound that the loop cannot reach (`read_triplets_fuel`).  The differences
`row - 1` and `col - 1` are `int` operations: an extracted value lies in the
range of `int`, so they are exact except for the literal `-2147483648`, where
they wrap to `2147483647`. -/
def read_triplets : Nat → List Char → List (Triplet ℚ) → List (Triplet ℚ)
  | 0, _, triplets => triplets
  | fuel + 1, s, triplets =>
    match extract_int s with
    | .ok row s1 =>
      match extract_int s1 with
      | .ok col s2 =>
        match extract_double s2 with
        | some (val, s3) =>
          read_triplets fuel s3 (triplets ++ [⟨wrap_int (row - 1), wrap_int (col - 1), val⟩])
        | none => triplets
      | _ => triplets
    | _ => triplets

/-- Ways a call of `read_matrix_market` can end.  `cannot_open` and
`not_square` are the two `return false`; `success` is `return true`; they carry
the final content of the reference parameters.  `length_error` is the exception
thrown by `triplets.reserve(nnz)` when `nnz` is negative (converted to `size_t`
it exceeds `max_size()`); a non-negative `int` never exceeds `max_size()`.  `indeterminate` stands for a run that reads a
variable the header extraction left uninitialised. -/
inductive ReadOutcome where
  | cannot_open (triplets : List (Triplet ℚ))
  | not_square (n m : Int) (triplets : List (Triplet ℚ))
  | success (n m : Int) (triplets : List (Triplet ℚ))
  | length_error
  | indeterminate
deriving DecidableEq

/-- Lines 52-67: reserve room for `nnz` entries, then read the entries. -/
def read_body (n m nnz : Int) (body : List Char) (triplets : List (Triplet ℚ)) :
    ReadOutcome :=
  if nnz < 0 then .length_error
  else .success n m (read_triplets (body.length + 1) body triplets)

/-- Function `read_matrix_market` (lines 27-68).  `file` is the content of the
file, `none` when it cannot be opened; `triplets` is the vector passed in. -/
def read_matrix_market (file : Option (List Char)) (triplets : List (Triplet ℚ)) :
    ReadOutcome :=
  match file with
  | none => .cannot_open triplets
  | some content =>
    let hb := find_header [] content
    match parse_header hb.1 with
    | (some n, some m, nnz) =>
      if n ≠ m then .not_square n m triplets
      else
        match nnz with
        | some nnz => read_body n m nnz hb.2 triplets
        | none => .indeterminate
    | _ => .indeterminate

/-! ### Reference description of the loader output -/

/-- Body item of the file: row, column (both 1-based) and value. -/
abbrev Item := Int × Int × ℚ

/-- One body item that parses as "int int real", and the input after it. -/
def parse_item (s : List Char) : Option (Item × List Char) :=
  match extract_int s with
  | .ok r s1 =>
    match extract_int s1 with
    | .ok c s2 =>
      match extract_double s2 with
      | some (v, s3) => some ((r, c, v), s3)
      | none => none
    | _ => none
  | _ => none

/-- Input left after parsing the given items one after the other; `none` when
the input does not start with these items. -/
def run_rest : List Char → List Item → Option (List Char)
  | s, [] => some s
  | s, it :: its =>
    match parse_item s with
    | some (it1, s1) => if it1 = it then run_rest s1 its else none
    | none => none

/-- The list `items` is the longest leading run of items of `body`: the body
starts with these items and what follows them is not an item. -/
def LongestLeadingRun (body : List Char) (items : List Item) : Prop :=
  ∃ rest, run_rest body items = some rest ∧ parse_item rest = none

/-- Entry stored for a body item: indices shifted from 1-based to 0-based, in
`int` arithmetic. -/
def to_entry (it : Item) : Triplet ℚ := ⟨wrap_int (it.1 - 1), wrap_int (it.2.1 - 1), it.2.2⟩

/-! ## Lower-triangle extraction (source lines 95-101) -/

/-- Loop of lines 96-101: `push_back` every entry with `row >= col`. -/
def lower_triplets {R : Type} (all_triplets : List (Triplet R)) : List (Triplet R) :=
  all_triplets.foldl (fun acc t => if t.row ≥ t.col then acc ++ [t] else acc) []

/-! ## Manual matrix-vector product (source lines 197-220) -/

/-- Arrays of a `cholmod_sparse` matrix read by the driver: column pointers
`p`, row indices `i` and values `x`. -/
structure Sparse (R : Type) where
  p : List Nat
  i : List Nat
  x : List R

/-- Update `y[i] += d` of a vector. -/
def add_at {R : Type} [Add R] : List R → Nat → R → List R
  | [], _, _ => []
  | y :: ys, 0, d => (y + d) :: ys
  | y :: ys, i + 1, d => y :: add_at ys i d

/-- Positions `k = Ap[j], ..., Ap[j+1] - 1` visited by the inner loop for
column `j` (line 208). -/
def column_entries {R : Type} (A : Sparse R) (j : Nat) : List Nat :=
  List.range' (A.p.getD j 0) (A.p.getD (j + 1) 0 - A.p.getD j 0)

/-- Body of the inner loop (lines 209-218). -/
def mirror_step {R : Type} [CommRing R] (A : Sparse R) (x_ptr : List R) (j : Nat)
    (Ax_result : List R) (k : Nat) : List R :=
  let i := A.i.getD k 0
  let val := A.x.getD k 0
  let y := add_at Ax_result i (val * x_ptr.getD j 0)
  if i ≠ j then add_at y j (val * x_ptr.getD i 0) else y

/-- Inner loop (line 208) for column `j`. -/
def column_loop {R : Type} [CommRing R] (A : Sparse R) (x_ptr : List R)
    (Ax_result : List R) (j : Nat) : List R :=
  (column_entries A j).foldl (mirror_step A x_ptr j) Ax_result

/-- Vector `Ax_result` after the double loop of lines 198-220. -/
def Ax_result {R : Type} [CommRing R] (n : Nat) (A : Sparse R) (x_ptr : List R) : List R :=
  (List.range n).foldl (column_loop A x_ptr) (List.replicate n 0)

/-- Well-formed lower-triangular compressed-column matrix of dimension `n`:
`n + 1` column pointers, every visited position inside the index and value
arrays, and every row index of column `j` in `j..n-1`. -/
def LowerCSC {R : Type} (n : Nat) (A : Sparse R) : Prop :=
  A.p.length = n + 1 ∧
  ∀ j, j < n → ∀ k ∈ column_entries A j,
    k < A.i.length ∧ k < A.x.length ∧ j ≤ A.i.getD k 0 ∧ A.i.getD k 0 < n

instance {R : Type} (n : Nat) (A : Sparse R) : Decidable (LowerCSC n A) := by
  unfold LowerCSC; infer_instance

/-! ### Reference description of the product -/

/-- Sum of the values stored at row `i` of column `j`. -/
def stored {R : Type} [CommRing R] (A : Sparse R) (i j : Nat) : R :=
  ((column_entries A j).map (fun k => if A.i.getD k 0 = i then A.x.getD k 0 else 0)).sum

/-- Entry `(i, j)` of the full symmetric matrix represented by the stored
lower triangle. -/
def sym_entry {R : Type} [CommRing R] (A : Sparse R) (i j : Nat) : R :=
  if j ≤ i then stored A i j else stored A j i

/-- Product of the full symmetric matrix with the vector `x`. -/
def sym_product {R : Type} [CommRing R] (n : Nat) (A : Sparse R) (x : List R) : List R :=
  (List.range n).map
    (fun i => ((List.range n).map (fun j => sym_entry A i j * x.getD j 0)).sum)

/-- Plain product of an entry list with `x`: `y[row] += val * x[col]` for every
entry, starting from the zero vector of length `n`. -/
def entries_product {R : Type} [CommRing R] (n : Nat) (entries : List (Triplet R))
    (x : List R) : List R :=
  entries.foldl (fun y t => add_at y t.row.toNat (t.val * x.getD t.col.toNat 0))
    (List.replicate n 0)

/-- Sum of the values of the entries of a list at position `(i, j)`. -/
def entries_at {R : Type} [CommRing R] (entries : List (Triplet R)) (i j : Nat) : R :=
  (entries.map (fun t => if t.row = (i : Int) ∧ t.col = (j : Int) then t.val else 0)).sum

/-- The compressed-column matrix `A` holds the entry list: it is a well-formed
lower-triangular matrix and, at every position, its stored values add up to
the values the list has there (what the triplet-to-sparse conversion of the
library delivers, duplicates summed or not). -/
def Holds {R : Type} [CommRing R] (n : Nat) (A : Sparse R) (entries : List (Triplet R)) :
    Prop :=
  LowerCSC n A ∧ ∀ i, i < n → ∀ j, j < n → stored A i j = entries_at entries i j

instance {R : Type} [CommRing R] [DecidableEq R] (n : Nat) (A : Sparse R)
    (entries : List (Triplet R)) : Decidable (Holds n A entries) := by
  unfold Holds; infer_instance

/-- Entry with row and column exchanged. -/
def Triplet.swap {R : Type} (t : Triplet R) : Triplet R := ⟨t.col, t.row, t.val⟩

/-- All indices of the list lie in `0..n-1`. -/
def InRange {R : Type} (n : Nat) (entries : List (Triplet R)) : Prop :=
  ∀ t ∈ entries, 0 ≤ t.row ∧ t.row < n ∧ 0 ≤ t.col ∧ t.col < n

instance {R : Type} (n : Nat) (entries : List (Triplet R)) : Decidable (InRange n entries) := by
  unfold InRange; infer_instance

/-- The list is symmetric as a multiset: `(i, j, v)` occurs as often as
`(j, i, v)`. -/
def SymmetricEntries {R : Type} [DecidableEq R] (entries : List (Triplet R)) : Prop :=
  ∀ t : Triplet R, entries.count t = entries.count t.swap

/-! ## Residual classification (source lines 242-248) -/

/-- Values of the C++ type `double`, by their exact value. -/
inductive Dbl where
  | nan
  | neg_inf
  | finite (q : ℚ)
  | pos_inf
deriving DecidableEq

/-- Comparison `a < b` of two doubles (false when either is NaN). -/
def Dbl.lt : Dbl → Dbl → Bool
  | .nan, _ => false
  | _, .nan => false
  | _, .neg_inf => false
  | .neg_inf, _ => true
  | .pos_inf, _ => false
  | .finite _, .pos_inf => true
  | .finite a, .finite b => decide (a < b)

/-- Comparison `a <= b` of two doubles (false when either is NaN). -/
def Dbl.le : Dbl → Dbl → Bool
  | .nan, _ => false
  | _, .nan => false
  | .neg_inf, _ => true
  | _, .pos_inf => true
  | .pos_inf, _ => false
  | .finite _, .neg_inf => false
  | .finite a, .finite b => decide (a ≤ b)

/-- The double denoted by the literal `1e-10`: `7737125245533627 / 2^86`. -/
def tol_passed : Dbl := .finite (mkRat 7737125245533627 (2 ^ 86))

/-- The double denoted by the literal `1e-6`: `4722366482869645 / 2^72`. -/
def tol_acceptable : Dbl := .finite (mkRat 4722366482869645 (2 ^ 72))

/-- The three messages of lines 242-248. -/
inductive Verdict where
  | passed
  | acceptable
  | warning
deriving DecidableEq

/-- Classification of lines 242-248. -/
def classify (relative_residual : Dbl) : Verdict :=
  if relative_residual.lt tol_passed then .passed
  else if relative_residual.lt tol_acceptable then .acceptable
  else .warning

/-! ## The driver `main` (source lines 70-260) -/

/-- Objects the driver obtains from the library and must give back. -/
inductive Resource where
  | common
  | T
  | A
  | b
  | L
  | x
deriving DecidableEq

/-- Observable steps of a run: the calls into CHOLMOD, with the arguments and
results that matter here (`ok` is false for a null result), and the report of
the residual (lines 239-248). -/
inductive Event where
  | cholmod_start
  | cholmod_version
  | cholmod_allocate_triplet (nrow : Int) (nzmax : Nat) (ok : Bool)
  | cholmod_triplet_to_sparse (ok : Bool)
  | cholmod_free_triplet
  | cholmod_allocate_dense (ok : Bool)
  | cholmod_analyze (ok : Bool)
  | cholmod_factorize (success status_ok : Bool)
  | cholmod_solve (ok : Bool)
  | cholmod_free_dense (which : Resource)
  | cholmod_free_factor
  | cholmod_free_sparse
  | cholmod_finish
  | report_residual (verdict : Verdict)
deriving DecidableEq

/-- Ways the process ends: `return` from `main` with a status, a null pointer
dereference, an exception nobody catches, or a read of an uninitialised
variable. -/
inductive Outcome where
  | exited (status : Nat)
  | null_dereference
  | uncaught_exception
  | indeterminate
deriving DecidableEq

/-- Inputs of one run: the file (`none` when it cannot be opened), the result
of each library call that can fail (`true` for a non-null result;
`factorize_success` is the value returned by `cholmod_factorize` and
`status_ok` says that `c.status` is `CHOLMOD_OK` after it), and the relative
residual the floating-point computation of lines 197-237 arrives at.  The
library is not constrained: every combination of results is a possible run,
whatever arguments the calls receive. -/
structure Env where
  file : Option (List Char)
  T_ok : Bool
  A_ok : Bool
  b_ok : Bool
  L_ok : Bool
  factorize_success : Bool
  status_ok : Bool
  x_ok : Bool
  relative_residual : Dbl

/-- Result of a run: the steps taken, in order, and how the process ended. -/
structure Run where
  trace : List Event
  outcome : Outcome
deriving DecidableEq

/-- Function `main` (lines 70-260): the calls it makes, in order, and the way
it ends.  The result of `cholmod_allocate_dense` is used without a null check
(line 148); every other fallible call is followed by a test and a cleanup.
After a successful solve, line 198 builds `std::vector<double> Ax_result(n, 0.0)`
from the `int` dimension `n`: a negative `n` converts to a `size_t` above
`max_size()` and the constructor throws `std::length_error`, which nothing
catches. -/
def main (env : Env) : Run :=
  let t0 := [.cholmod_start, .cholmod_version]
  match read_matrix_market env.file [] with
  | .cannot_open _ => ⟨t0 ++ [.cholmod_finish], .exited 1⟩
  | .not_square _ _ _ => ⟨t0 ++ [.cholmod_finish], .exited 1⟩
  | .length_error => ⟨t0, .uncaught_exception⟩
  | .indeterminate => ⟨t0, .indeterminate⟩
  | .success n _ all_triplets =>
    let nnz := (lower_triplets all_triplets).length
    let t1 := t0 ++ [.cholmod_allocate_triplet n nnz env.T_ok]
    if !env.T_ok then ⟨t1 ++ [.cholmod_finish], .exited 1⟩
    else
      let t2 := t1 ++ [.cholmod_triplet_to_sparse env.A_ok, .cholmod_free_triplet]
      if !env.A_ok then ⟨t2 ++ [.cholmod_finish], .exited 1⟩
      else
        let t3 := t2 ++ [.cholmod_allocate_dense env.b_ok]
        if !env.b_ok then ⟨t3, .null_dereference⟩
        else
          let t4 := t3 ++ [.cholmod_analyze env.L_ok]
          if !env.L_ok then
            ⟨t4 ++ [.cholmod_free_dense .b, .cholmod_free_sparse, .cholmod_finish], .exited 1⟩
          else
            let t5 := t4 ++ [.cholmod_factorize env.factorize_success env.status_ok]
            if !env.factorize_success || !env.status_ok then
              ⟨t5 ++ [.cholmod_free_factor, .cholmod_free_dense .b, .cholmod_free_sparse,
                      .cholmod_finish], .exited 1⟩
            else
              let t6 := t5 ++ [.cholmod_solve env.x_ok]
              if !env.x_ok then
                ⟨t6 ++ [.cholmod_free_factor, .cholmod_free_dense .b, .cholmod_free_sparse,
                        .cholmod_finish], .exited 1⟩
              else if n < 0 then ⟨t6, .uncaught_exception⟩
              else
                ⟨t6 ++ [.report_residual (classify env.relative_residual),
                        .cholmod_free_dense .x, .cholmod_free_factor, .cholmod_free_dense .b,
                        .cholmod_free_sparse, .cholmod_finish], .exited 0⟩

/-! ### Reading a trace -/

/-- Resource obtained by a step, if any. -/
def Event.acquires : Event → Option Resource
  | .cholmod_start => some .common
  | .cholmod_allocate_triplet _ _ true => some .T
  | .cholmod_triplet_to_sparse true => some .A
  | .cholmod_allocate_dense true => some .b
  | .cholmod_analyze true => some .L
  | .cholmod_solve true => some .x
  | _ => none

/-- Resource given back by a step, if any. -/
def Event.releases : Event → Option Resource
  | .cholmod_free_triplet => some .T
  | .cholmod_free_dense r => some r
  | .cholmod_free_factor => some .L
  | .cholmod_free_sparse => some .A
  | .cholmod_finish => some .common
  | _ => none

/-- The step is a call into the external library. -/
def Event.is_library_call : Event → Bool
  | .report_residual _ => false
  | _ => true

/-- The step is one of the six fallible library steps and reports failure. -/
def Event.reports_failure : Event → Bool
  | .cholmod_allocate_triplet _ _ ok => !ok
  | .cholmod_triplet_to_sparse ok => !ok
  | .cholmod_allocate_dense ok => !ok
  | .cholmod_analyze ok => !ok
  | .cholmod_factorize success status_ok => !success || !status_ok
  | .cholmod_solve ok => !ok
  | _ => false

/-- The step reports the residual. -/
def Event.is_report : Event → Bool
  | .report_residual _ => true
  | _ => false

/-- The step acquires or releases the given resource. -/
def Event.concerns (r : Resource) (e : Event) : Bool :=
  decide (e.acquires = some r) || decide (e.releases = some r)

/-- Replay of a trace against the list of resources currently held (most
recent first).  An acquisition of a held resource and a release of a resource
that is not held are errors (`none`).  With `strict`, a release must give back
the most recently acquired resource still held. -/
def replay (strict : Bool) : List Resource → List Event → Option (List Resource)
  | held, [] => some held
  | held, e :: es =>
    match e.acquires, e.releases with
    | some r, _ => if r ∈ held then none else replay strict (r :: held) es
    | none, some r =>
      if r ∈ held then
        if strict && decide (held.head? ≠ some r) then none
        else replay strict (held.erase r) es
      else none
    | none, none => replay strict held es

/-- Every resource acquired in the trace is released exactly once, after its
acquisition, and nothing is held at the end. -/
def Balanced (trace : List Event) : Prop := replay false [] trace = some []

instance (trace : List Event) : Decidable (Balanced trace) := by
  unfold Balanced; infer_instance

/-- Same as `Balanced`, with the releases in strict reverse order of
acquisition. -/
def StrictlyNested (trace : List Event) : Prop := replay true [] trace = some []

instance (trace : List Event) : Decidable (StrictlyNested trace) := by
  unfold StrictlyNested; infer_instance

/-- The triplet matrix is released by the step that directly follows the
conversion to sparse, and nowhere else. -/
def freed_after_conversion : List Event → Bool
  | [] => true
  | .cholmod_triplet_to_sparse _ :: .cholmod_free_triplet :: es => freed_after_conversion es
  | .cholmod_triplet_to_sparse _ :: _ => false
  | .cholmod_free_triplet :: _ => false
  | _ :: es => freed_after_conversion es

/-! ## Concrete inputs used in the statements below -/

/-- Compressed-column form of the lower entries `(0,0,2)`, `(1,0,1)`,
`(1,1,3)`. -/
def example_A (R : Type) [CommRing R] : Sparse R := ⟨[0, 2, 3], [0, 1, 1], [2, 1, 3]⟩

/-- A 2x2 file with one entry. -/
def file_one_entry : List Char := "2 2 1\n1 1 5.0\n".toList

/-- A file whose header declares 2 rows and 3 columns. -/
def file_not_square : List Char := "2 3 1\n1 1 5.0\n".toList

/-- A square file whose header declares a negative number of entries. -/
def file_negative_nnz : List Char := "2 2 -1\n1 1 5.0\n".toList

/-- A 2x2 file whose only entry has indices outside `1..2`. -/
def file_out_of_range : List Char := "2 2 1\n5 7 1.0\n".toList

/-- A run in which every step succeeds. -/
def env_all_ok (file : List Char) (r : Dbl) : Env :=
  ⟨some file, true, true, true, true, true, true, true, r⟩

/-- A run in which the allocation of the right-hand side returns null. -/
def env_dense_null : Env :=
  ⟨some file_one_entry, true, true, false, true, true, true, true, .nan⟩

/-- A fully listed symmetric 2x2 matrix. -/
def example_entries : List (Triplet ℤ) := [⟨0, 0, 2⟩, ⟨0, 1, 1⟩, ⟨1, 0, 1⟩, ⟨1, 1, 3⟩]

/-! ## Loader: auxiliary facts -/

/-- Removing a sign does not lengthen the input. -/
theorem length_strip_sign_le (s : List Char) : (strip_sign s).2.length ≤ s.length := by
  unfold strip_sign
  split <;> simp

/-- Dropping leading characters does not lengthen the input. -/
theorem length_dropWhile_le_self (p : Char → Bool) (s : List Char) :
    (s.dropWhile p).length ≤ s.length :=
  (List.dropWhile_suffix p).length_le

/-- When at least one leading character is taken, dropping them shortens the input. -/
theorem length_dropWhile_lt_of_takeWhile (p : Char → Bool) (s : List Char)
    (h : s.takeWhile p ≠ []) : (s.dropWhile p).length < s.length := by
  have h1 : (s.takeWhile p).length + (s.dropWhile p).length = s.length := by
    rw [← List.length_append, List.takeWhile_append_dropWhile]
  have h2 : 0 < (s.takeWhile p).length := List.length_pos.2 h
  omega

/-- A successful `stream >> int` consumes at least one character. -/
theorem extract_int_length {s : List Char} {v : Int} {rest : List Char}
    (h : extract_int s = .ok v rest) : rest.length < s.length := by
  unfold extract_int at h
  split at h
  · cases h
  · rename_i c cs hs
    have h2 := length_strip_sign_le (c :: cs)
    have h3 := length_dropWhile_le_self isspace s
    rw [hs] at h3
    by_cases hds : (strip_sign (c :: cs)).2.takeWhile isdigit = []
    · simp [hds] at h
    · have h1 := length_dropWhile_lt_of_takeWhile isdigit _ hds
      simp only [hds, if_false] at h
      split_ifs at h <;> cases h <;> omega

/-- Reading a fraction part does not lengthen the input. -/
theorem extract_fraction_length (s : List Char) : (extract_fraction s).2.length ≤ s.length := by
  unfold extract_fraction
  split
  · have := length_dropWhile_le_self isdigit ‹List Char›
    simp only [List.length_cons]; omega
  · exact le_rfl

/-- Reading an exponent part does not lengthen the input. -/
theorem extract_exponent_length {s : List Char} {e : Int} {rest : List Char}
    (h : extract_exponent s = some (e, rest)) : rest.length ≤ s.length := by
  unfold extract_exponent at h
  split at h
  · simp at h; simp [h.2]
  · rename_i c cs
    split at h
    · simp only at h
      split at h
      · simp at h
      · simp only [Option.some.injEq, Prod.mk.injEq] at h
        have h1 := length_dropWhile_le_self isdigit (strip_sign cs).2
        have h2 := length_strip_sign_le cs
        rw [← h.2]
        simp only [List.length_cons]; omega
    · simp only [Option.some.injEq, Prod.mk.injEq] at h
      rw [← h.2]

/-- A successful `stream >> double` does not lengthen the input. -/
theorem extract_double_length {s : List Char} {v : ℚ} {rest : List Char}
    (h : extract_double s = some (v, rest)) : rest.length ≤ s.length := by
  unfold extract_double at h
  split at h
  · simp at h
  · rename_i c cs hs
    simp only at h
    split at h
    · simp at h
    · split at h
      · simp at h
      · rename_i e r he
        split at h
        · simp at h
        · simp only [Option.some.injEq, Prod.mk.injEq] at h
          have h1 := extract_exponent_length he
          have h2 := extract_fraction_length ((strip_sign (c :: cs)).2.dropWhile isdigit)
          have h3 := length_dropWhile_le_self isdigit (strip_sign (c :: cs)).2
          have h4 := length_strip_sign_le (c :: cs)
          have h5 := length_dropWhile_le_self isspace s
          rw [hs] at h5
          rw [← h.2]
          omega

/-- A successful `stream >> int` delivers a value in the range of `int`. -/
theorem extract_int_range {s : List Char} {v : Int} {rest : List Char}
    (h : extract_int s = .ok v rest) : INT_MIN ≤ v ∧ v ≤ INT_MAX := by
  unfold extract_int at h
  split at h
  · cases h
  · rename_i c cs hs
    by_cases hds : (strip_sign (c :: cs)).2.takeWhile isdigit = []
    · simp [hds] at h
    · simp only [hds, if_false] at h
      split_ifs at h <;> cases h <;> constructor <;> omega

/-- The indices of a parsed item lie in the range of `int`. -/
theorem parse_item_range {s : List Char} {it : Item} {rest : List Char}
    (h : parse_item s = some (it, rest)) :
    (INT_MIN ≤ it.1 ∧ it.1 ≤ INT_MAX) ∧ (INT_MIN ≤ it.2.1 ∧ it.2.1 ≤ INT_MAX) := by
  unfold parse_item at h
  split at h
  · rename_i r s1 h1
    split at h
    · rename_i c s2 h2
      split at h
      · simp only [Option.some.injEq, Prod.mk.injEq] at h
        rw [← h.1]
        exact ⟨extract_int_range h1, extract_int_range h2⟩
      · simp at h
    · simp at h
  · simp at h

/-- The indices of the items of a leading run lie in the range of `int`. -/
theorem run_rest_range :
    ∀ (items : List Item) (s rest : List Char), run_rest s items = some rest →
      ∀ it ∈ items,
        (INT_MIN ≤ it.1 ∧ it.1 ≤ INT_MAX) ∧ (INT_MIN ≤ it.2.1 ∧ it.2.1 ≤ INT_MAX) := by
  intro items
  induction items with
  | nil => intro s rest _ it hit; simp at hit
  | cons a as ih =>
    intro s rest h it hit
    cases hp : parse_item s with
    | none => simp [run_rest, hp] at h
    | some p =>
      obtain ⟨it1, s1⟩ := p
      simp only [run_rest, hp] at h
      split at h
      · rename_i heq
        rcases List.mem_cons.1 hit with h1 | h1
        · rw [h1, ← heq]
          exact parse_item_range hp
        · exact ih s1 rest h it h1
      · simp at h

/-- Parsing one item consumes at least one character. -/
theorem parse_item_length {s : List Char} {it : Item} {rest : List Char}
    (h : parse_item s = some (it, rest)) : rest.length < s.length := by
  unfold parse_item at h
  split at h
  · rename_i r s1 h1
    split at h
    · rename_i c s2 h2
      split at h
      · rename_i v s3 h3
        simp only [Option.some.injEq, Prod.mk.injEq] at h
        have a1 := extract_int_length h1
        have a2 := extract_int_length h2
        have a3 := extract_double_length h3
        rw [← h.2]; omega
      · simp at h
    · simp at h
  · simp at h

/-- One iteration of the reading loop, stated with `parse_item`. -/
theorem read_triplets_succ (fuel : Nat) (s : List Char) (ts : List (Triplet ℚ)) :
    read_triplets (fuel + 1) s ts =
      match parse_item s with
      | some (it, rest) => read_triplets fuel rest (ts ++ [to_entry it])
      | none => ts := by
  simp only [read_triplets, parse_item]
  rcases extract_int s with ⟨r, s1⟩ | v | _ <;> dsimp only
  rcases extract_int s1 with ⟨c, s2⟩ | v | _ <;> dsimp only
  rcases extract_double s2 with _ | ⟨v, s3⟩ <;> rfl

/-- With more iterations allowed than the input has characters, the reading
loop ends because an item fails to parse: it returns the entries of the longest
leading run of items, appended to the vector it was given. -/
theorem read_triplets_fuel (fuel : Nat) :
    ∀ (s : List Char) (ts : List (Triplet ℚ)), s.length < fuel →
      ∃ items, LongestLeadingRun s items ∧
        read_triplets fuel s ts = ts ++ items.map to_entry := by
  induction fuel with
  | zero => intro s ts h; omega
  | succ fuel ih =>
    intro s ts h
    rw [read_triplets_succ]
    cases hp : parse_item s with
    | none =>
      exact ⟨[], ⟨s, rfl, hp⟩, by simp⟩
    | some p =>
      obtain ⟨it, rest⟩ := p
      have hlen := parse_item_length hp
      obtain ⟨items, ⟨r, hr, hn⟩, heq⟩ := ih rest (ts ++ [to_entry it]) (by omega)
      refine ⟨it :: items, ⟨r, ?_, hn⟩, ?_⟩
      · simp [run_rest, hp, hr]
      · simp [heq]

/-- The longest leading run of items of an input is unique. -/
theorem longestLeadingRun_unique :
    ∀ (items1 items2 : List Item) (s : List Char),
      LongestLeadingRun s items1 → LongestLeadingRun s items2 → items1 = items2 := by
  intro items1
  induction items1 with
  | nil =>
    intro items2 s h1 h2
    obtain ⟨r1, hr1, hn1⟩ := h1
    simp only [run_rest, Option.some.injEq] at hr1
    subst hr1
    cases items2 with
    | nil => rfl
    | cons b bs =>
      obtain ⟨r2, hr2, _⟩ := h2
      simp [run_rest, hn1] at hr2
  | cons a as ih =>
    intro items2 s h1 h2
    obtain ⟨r1, hr1, hn1⟩ := h1
    cases hp : parse_item s with
    | none => simp [run_rest, hp] at hr1
    | some p =>
      obtain ⟨it, rest⟩ := p
      simp only [run_rest, hp] at hr1
      split at hr1
      · rename_i hit
        cases items2 with
        | nil =>
          obtain ⟨r2, hr2, hn2⟩ := h2
          simp only [run_rest, Option.some.injEq] at hr2
          subst hr2
          simp [hp] at hn2
        | cons b bs =>
          obtain ⟨r2, hr2, hn2⟩ := h2
          simp only [run_rest, hp] at hr2
          split at hr2
          · rename_i hit2
            have := ih bs rest ⟨r1, hr1, hn1⟩ ⟨r2, hr2, hn2⟩
            rw [this, ← hit, ← hit2]
          · simp at hr2
      · simp at hr1

/-- Loader output for a square header with a non-negative declared count: the
call succeeds and appends the entries of the longest leading run of items. -/
theorem read_matrix_market_entries (content : List Char) (n nnz : Int)
    (ts : List (Triplet ℚ))
    (hh : parse_header (find_header [] content).1 = (some n, some n, some nnz))
    (hnnz : 0 ≤ nnz) :
    ∃ items, LongestLeadingRun (find_header [] content).2 items ∧
      read_matrix_market (some content) ts = .success n n (ts ++ items.map to_entry) := by
  obtain ⟨items, hrun, heq⟩ :=
    read_triplets_fuel ((find_header [] content).2.length + 1) (find_header [] content).2 ts
      (Nat.lt_succ_self _)
  refine ⟨items, hrun, ?_⟩
  simp only [read_matrix_market, hh, read_body]
  simp [heq, not_lt.2 hnnz]



/-- Instance of `read_matrix_market_entries`: the body line `1 1 5.0` is stored
as row 0, column 0, value 5. -/
theorem read_matrix_market_entries_witness :
    read_matrix_market (some file_one_entry) [] = .success 2 2 [⟨0, 0, 5⟩] ∧
    ∃ items, LongestLeadingRun (find_header [] file_one_entry).2 items ∧
      read_matrix_market (some file_one_entry) [] = .success 2 2 ([] ++ items.map to_entry) :=
  ⟨by decide, read_matrix_market_entries file_one_entry 2 1 [] (by decide) (by decide)⟩

/-! ## C1: lower-triangle extraction -/

/-- The extraction loop started on `acc` appends the filtered entries to `acc`. -/
theorem lower_triplets_foldl {R : Type} (l acc : List (Triplet R)) :
    l.foldl (fun acc t => if t.row ≥ t.col then acc ++ [t] else acc) acc =
      acc ++ l.filter (fun t => decide (t.row ≥ t.col)) := by
  induction l generalizing acc with
  | nil => simp
  | cons t l ih =>
    rw [List.foldl_cons, ih]
    by_cases h : t.row ≥ t.col
    · simp [h]
    · simp [h]

/-- C1: the lower-triangle extraction of `main` returns exactly the entries
with `row >= col`, in their original order: it equals `List.filter`; on entries
at (0,0),(0,1),(1,0),(1,1) it returns those at (0,0),(1,0),(1,1). -/
theorem lower_triplets_eq_filter {R : Type} (all_triplets : List (Triplet R)) (a b c d : R) :
    lower_triplets all_triplets = all_triplets.filter (fun t => decide (t.row ≥ t.col)) ∧
    lower_triplets [⟨0, 0, a⟩, ⟨0, 1, b⟩, ⟨1, 0, c⟩, ⟨1, 1, d⟩] =
      [⟨0, 0, a⟩, ⟨1, 0, c⟩, ⟨1, 1, d⟩] := by
  constructor
  · simpa [lower_triplets] using lower_triplets_foldl all_triplets []
  · simp [lower_triplets]

/-! ## C5: residual classification -/

/-- The double `1e-10` is below the double `1e-6`. -/
theorem tol_passed_lt_tol_acceptable :
    mkRat 7737125245533627 (2 ^ 86) < mkRat 4722366482869645 (2 ^ 72) := by decide

/-- Two-threshold classification with strict comparisons, for any thresholds `a < b`. -/
theorem classify_between (a b : ℚ) (hab : a < b) (r : Dbl) (c : Verdict)
    (hc : c = if r.lt (.finite a) = true then Verdict.passed
      else if r.lt (.finite b) = true then Verdict.acceptable else Verdict.warning) :
    (c = .passed ↔ r.lt (.finite a) = true) ∧
    (c = .acceptable ↔ ((Dbl.finite a).le r = true ∧ r.lt (.finite b) = true)) ∧
    (c = .warning ↔
      (¬ r.lt (.finite a) = true ∧ ¬ ((Dbl.finite a).le r = true ∧ r.lt (.finite b) = true))) := by
  subst hc
  cases r with
  | nan => simp [Dbl.lt, Dbl.le]
  | neg_inf => simp [Dbl.lt, Dbl.le]
  | pos_inf => simp [Dbl.lt, Dbl.le]
  | finite q =>
    simp only [Dbl.lt, Dbl.le, decide_eq_true_eq]
    rcases lt_or_le q a with h1 | h1
    · have h2 : q < b := lt_trans h1 hab
      simp [h1, h2, not_le.2 h1]
    · rcases lt_or_le q b with h2 | h2
      · simp [not_lt.2 h1, h1, h2]
      · simp [not_lt.2 h1, not_lt.2 h2, h1]

/-- C5: the outcome is "passed" iff `r < 1e-10`, "acceptable" iff
`1e-10 <= r < 1e-6` and "warning" otherwise, for every double `r` (NaN
included); a residual equal to `1e-10` is "acceptable" and one equal to `1e-6`
is "warning". -/
theorem classify_thresholds (r : Dbl) :
    (classify r = .passed ↔ r.lt tol_passed = true) ∧
    (classify r = .acceptable ↔ (tol_passed.le r = true ∧ r.lt tol_acceptable = true)) ∧
    (classify r = .warning ↔
      (¬ r.lt tol_passed = true ∧ ¬ (tol_passed.le r = true ∧ r.lt tol_acceptable = true))) ∧
    classify tol_passed = .acceptable ∧ classify tol_acceptable = .warning := by
  have h := classify_between _ _ tol_passed_lt_tol_acceptable r (classify r) rfl
  exact ⟨h.1, h.2.1, h.2.2, by decide, by decide⟩



/-! ## C3: non-square rejection -/

/-- C3, as stated, fails on a 2x3 header: the loader rejects the file and the
run exits with status 1, but `cholmod_start`, `cholmod_version` and
`cholmod_finish` have been called. -/
theorem non_square_run_calls_library :
    (main (env_all_ok file_not_square .nan)).trace =
        [.cholmod_start, .cholmod_version, .cholmod_finish] ∧
    ¬ (read_matrix_market (some file_not_square) [] = .not_square 2 3 [] ∧
       (main (env_all_ok file_not_square .nan)).outcome = .exited 1 ∧
       ∀ e ∈ (main (env_all_ok file_not_square .nan)).trace, e.is_library_call = false) := by
  decide

/-- C3, amended: when the header declares `n` rows and `m ≠ n` columns,
`read_matrix_market` returns failure with the entry vector unchanged, and the
run exits with status 1 having called only `cholmod_start`, `cholmod_version`
and `cholmod_finish`. -/
theorem non_square_rejected (env : Env) (content : List Char) (n m : Int) (nnz : Option Int)
    (ts : List (Triplet ℚ)) (hfile : env.file = some content)
    (hh : parse_header (find_header [] content).1 = (some n, some m, nnz)) (hne : n ≠ m) :
    read_matrix_market (some content) ts = .not_square n m ts ∧
    main env = ⟨[.cholmod_start, .cholmod_version, .cholmod_finish], .exited 1⟩ := by
  have hr : ∀ ts, read_matrix_market (some content) ts = .not_square n m ts := by
    intro ts
    simp [read_matrix_market, hh, hne]
  refine ⟨hr ts, ?_⟩
  simp [main, hfile, hr]

/-- Instance of `non_square_rejected` on a file with header `2 3 1`. -/
theorem non_square_rejected_witness :
    read_matrix_market (some file_not_square) [] = .not_square 2 3 [] ∧
    main (env_all_ok file_not_square .nan) =
      ⟨[.cholmod_start, .cholmod_version, .cholmod_finish], .exited 1⟩ :=
  non_square_rejected (env_all_ok file_not_square .nan) file_not_square 2 3 (some 1) [] rfl
    (by decide) (by decide)

/-! ## C4: loader output -/

/-- C4 at a header with a negative entry count: `triplets.reserve(nnz)` throws,
the loader returns nothing and the run ends with an uncaught exception. -/
theorem negative_count_throws :
    parse_header (find_header [] file_negative_nnz).1 = (some 2, some 2, some (-1)) ∧
    read_matrix_market (some file_negative_nnz) [] = .length_error ∧
    (main (env_all_ok file_negative_nnz .nan)).outcome = .uncaught_exception := by
  decide

/-! ## C8: index range of loaded entries -/

/-- C8, as stated, fails: the file `2 2 1 / 5 7 1.0` is accepted with dimension
2 and yields the entry at row 4, column 6. -/
theorem accepted_entry_out_of_range :
    read_matrix_market (some file_out_of_range) [] = .success 2 2 [⟨4, 6, 1⟩] ∧
    ¬ (∀ n m ts, read_matrix_market (some file_out_of_range) [] = .success n m ts →
        ∀ t ∈ ts, 0 ≤ t.row ∧ t.row < n ∧ 0 ≤ t.col ∧ t.col < n) := by
  refine ⟨by decide, ?_⟩
  intro h
  have h2 := h 2 2 [⟨4, 6, 1⟩] (by decide) ⟨4, 6, 1⟩ (by simp)
  simp at h2

/-- Whenever the loader succeeds, the vector it returns is the vector it was given
followed by the entries of the longest leading run of items of the body. -/
theorem read_matrix_market_success {content : List Char} {n m : Int}
    {ts0 ts : List (Triplet ℚ)}
    (h : read_matrix_market (some content) ts0 = .success n m ts) :
    ∃ items, LongestLeadingRun (find_header [] content).2 items ∧
      ts = ts0 ++ items.map to_entry := by
  obtain ⟨items, hrun, heq⟩ :=
    read_triplets_fuel ((find_header [] content).2.length + 1) (find_header [] content).2 ts0
      (Nat.lt_succ_self _)
  refine ⟨items, hrun, ?_⟩
  simp only [read_matrix_market] at h
  split at h
  · split_ifs at h
    split at h
    · simp only [read_body] at h
      split_ifs at h
      simp only [ReadOutcome.success.injEq] at h
      rw [← h.2.2, heq]
    · cases h
  · cases h

/-- C8, amended: for every file that `read_matrix_market` accepts with declared
dimension `n` and whose body items (the longest leading run that parses) all
have their 1-based indices in `1..n`, every entry produced has
`0 <= row < n` and `0 <= col < n`. -/
theorem entries_in_range_of_items (content : List Char) (n m : Int)
    (ts : List (Triplet ℚ)) (items : List Item)
    (hread : read_matrix_market (some content) [] = .success n m ts)
    (hrun : LongestLeadingRun (find_header [] content).2 items)
    (hitems : ∀ it ∈ items, 1 ≤ it.1 ∧ it.1 ≤ n ∧ 1 ≤ it.2.1 ∧ it.2.1 ≤ n) :
    ∀ t ∈ ts, 0 ≤ t.row ∧ t.row < n ∧ 0 ≤ t.col ∧ t.col < n := by
  obtain ⟨items1, hrun1, heq⟩ := read_matrix_market_success hread
  have hi : items1 = items := longestLeadingRun_unique _ _ _ hrun1 hrun
  subst hi
  intro t ht
  rw [heq] at ht
  simp only [List.nil_append, List.mem_map] at ht
  obtain ⟨it, hit, rfl⟩ := ht
  have h1 := hitems it hit
  obtain ⟨rest, hrest, _⟩ := hrun
  have h2 := run_rest_range items1 _ rest hrest it hit
  simp only [INT_MIN, INT_MAX] at h2
  simp only [to_entry, wrap_int]
  omega

/-- Instance of `entries_in_range_of_items`: the file `2 2 1 / 1 1 5.0` is
accepted with dimension 2, its only item has indices in `1..2`, and its entry
lies in range. -/
theorem entries_in_range_of_items_witness :
    read_matrix_market (some file_one_entry) [] = .success 2 2 [⟨0, 0, 5⟩] ∧
    LongestLeadingRun (find_header [] file_one_entry).2 [(1, 1, 5)] ∧
    (0 ≤ (Triplet.mk 0 0 (5 : ℚ)).row ∧ (Triplet.mk 0 0 (5 : ℚ)).row < 2 ∧
     0 ≤ (Triplet.mk 0 0 (5 : ℚ)).col ∧ (Triplet.mk 0 0 (5 : ℚ)).col < 2) :=
  ⟨by decide, ⟨['\n'], by decide, by decide⟩,
    entries_in_range_of_items file_one_entry 2 2 [⟨0, 0, 5⟩] [(1, 1, 5)] (by decide)
      ⟨['\n'], by decide, by decide⟩ (by decide) ⟨0, 0, 5⟩ (List.mem_singleton.2 rfl)⟩



/-! ## C6, C7: exit status -/

/-- C6 at a failing allocation of the right-hand side: the failed step is in
the trace, yet the run does not exit with status 1; the null result is
dereferenced (line 148), with the sparse matrix and the context still held. -/
theorem dense_allocation_failure_not_handled :
    Event.cholmod_allocate_dense false ∈ (main env_dense_null).trace ∧
    (Event.cholmod_allocate_dense false).reports_failure = true ∧
    (main env_dense_null).outcome = .null_dereference ∧
    (main env_dense_null).outcome ≠ .exited 1 := by
  decide

/-- Boolean form of `library_failure_exits_one`. -/
theorem library_failure_exits_one_aux (env : Env) (hb : env.b_ok = true)
    (hfail : (main env).trace.any Event.reports_failure = true) :
    (main env).outcome = .exited 1 ∧ (main env).trace.any Event.is_report = false := by
  obtain ⟨file, T_ok, A_ok, b_ok, L_ok, fs, st, x_ok, r⟩ := env
  simp only at hb
  subst hb
  revert hfail
  simp only [main]
  cases read_matrix_market file [] with
  | success n m ts =>
    by_cases hn : n < 0 <;>
    cases T_ok <;> cases A_ok <;> cases L_ok <;> cases fs <;> cases st <;> cases x_ok <;>
    simp [Event.reports_failure, Event.is_report, hn]
  | _ => simp [Event.reports_failure, Event.is_report]

/-- Every failing library step other than the allocation of the right-hand
side ends the run with status 1 and without a residual report. -/
theorem library_failure_exits_one (env : Env) (hb : env.b_ok = true)
    (hfail : ∃ e ∈ (main env).trace, e.reports_failure = true) :
    (main env).outcome = .exited 1 ∧ ∀ e ∈ (main env).trace, e.is_report = false := by
  have h := library_failure_exits_one_aux env hb (List.any_eq_true.2 hfail)
  refine ⟨h.1, fun e he => ?_⟩
  have := List.any_eq_false.1 h.2 e he
  simpa using this

/-- C9, as stated, fails on a run in which every step succeeds: the run exits
with status 0 and its releases are not in reverse order of acquisition (the
triplet matrix is released while the sparse matrix, acquired after it, is still
held). -/
theorem releases_not_strictly_nested :
    (main (env_all_ok file_one_entry .nan)).outcome = .exited 0 ∧
    (main (env_all_ok file_one_entry .nan)).trace.filterMap Event.acquires =
      [.common, .T, .A, .b, .L, .x] ∧
    (main (env_all_ok file_one_entry .nan)).trace.filterMap Event.releases =
      [.T, .x, .L, .b, .A, .common] ∧
    ¬ StrictlyNested (main (env_all_ok file_one_entry .nan)).trace := by
  decide

/-- C9, amended: on every path on which `main` returns, every resource
acquired is released exactly once, after its acquisition and before the exit;
the triplet matrix is released right after the conversion to sparse and,
leaving it aside, the releases are in strict reverse order of acquisition. -/
theorem releases_balanced (env : Env) (status : Nat)
    (hexit : (main env).outcome = .exited status) :
    Balanced (main env).trace ∧
    freed_after_conversion (main env).trace = true ∧
    StrictlyNested ((main env).trace.filter (fun e => !e.concerns .T)) := by
  obtain ⟨file, T_ok, A_ok, b_ok, L_ok, fs, st, x_ok, r⟩ := env
  revert hexit
  simp only [main]
  cases read_matrix_market file [] with
  | success n m ts =>
    by_cases hn : n < 0 <;>
    cases T_ok <;> cases A_ok <;> cases b_ok <;> cases L_ok <;> cases fs <;> cases st <;>
    cases x_ok <;>
    simp [Balanced, StrictlyNested, replay, freed_after_conversion, Event.acquires,
      Event.releases, Event.concerns, hn]
  | _ =>
    simp [Balanced, StrictlyNested, replay, freed_after_conversion, Event.acquires,
      Event.releases, Event.concerns]

/-- Instance of `releases_balanced` on a run in which every step succeeds. -/
theorem releases_balanced_witness :
    (main (env_all_ok file_one_entry .nan)).outcome = .exited 0 ∧
    Balanced (main (env_all_ok file_one_entry .nan)).trace ∧
    freed_after_conversion (main (env_all_ok file_one_entry .nan)).trace = true ∧
    StrictlyNested ((main (env_all_ok file_one_entry .nan)).trace.filter
      (fun e => !e.concerns .T)) :=
  ⟨by decide, releases_balanced (env_all_ok file_one_entry .nan) 0 (by decide)⟩



/-! ## Matrix-vector product: auxiliary facts -/

/-- The update `y[i] += d` keeps the length of the vector. -/
theorem length_add_at {R : Type} [CommRing R] (y : List R) (i : Nat) (d : R) :
    (add_at y i d).length = y.length := by
  induction y generalizing i with
  | nil => rfl
  | cons h t ih =>
    cases i with
    | zero => rfl
    | succ i => simp [add_at, ih]

/-- Component `a` after the update `y[i] += d`. -/
theorem getD_add_at {R : Type} [CommRing R] (y : List R) (i a : Nat) (d : R) :
    (add_at y i d).getD a 0 = y.getD a 0 + (if a = i ∧ i < y.length then d else 0) := by
  induction y generalizing i a with
  | nil => simp [add_at]
  | cons h t ih =>
    cases i with
    | zero =>
      cases a with
      | zero => simp [add_at]
      | succ a => simp [add_at]
    | succ i =>
      cases a with
      | zero => simp [add_at]
      | succ a =>
        have h1 := ih i a
        simp only [add_at, List.getD_cons_succ, List.length_cons, Nat.add_lt_add_iff_right,
          Nat.add_right_cancel_iff]
        exact h1

/-- A loop whose body adds to each component an amount that depends only on
the length of the vector adds, in total, the sum of these amounts. -/
theorem foldl_accumulate {R β : Type} [CommRing R] (f : List R → β → List R)
    (c : Nat → β → Nat → R)
    (hlen : ∀ y b, (f y b).length = y.length)
    (hget : ∀ y b a, (f y b).getD a 0 = y.getD a 0 + c y.length b a) :
    ∀ (l : List β) (y : List R), (l.foldl f y).length = y.length ∧
      ∀ a, (l.foldl f y).getD a 0 = y.getD a 0 + (l.map (fun b => c y.length b a)).sum := by
  intro l
  induction l with
  | nil => intro y; simp
  | cons b l ih =>
    intro y
    obtain ⟨h1, h2⟩ := ih (f y b)
    refine ⟨by rw [List.foldl_cons, h1, hlen], fun a => ?_⟩
    rw [List.foldl_cons, h2 a, hget, hlen, List.map_cons, List.sum_cons, add_assoc]

/-- The body of the inner loop keeps the length of the vector. -/
theorem length_mirror_step {R : Type} [CommRing R] (A : Sparse R) (x : List R) (j : Nat)
    (y : List R) (k : Nat) : (mirror_step A x j y k).length = y.length := by
  unfold mirror_step
  simp only
  split_ifs <;> simp [length_add_at]

/-- Component `a` after one execution of the body of the inner loop: the direct
contribution to row `i` and, off the diagonal, the mirror contribution to row
`j`. -/
theorem getD_mirror_step {R : Type} [CommRing R] (A : Sparse R) (x : List R) (j : Nat)
    (y : List R) (k a : Nat) :
    (mirror_step A x j y k).getD a 0 = y.getD a 0 +
      ((if a = A.i.getD k 0 ∧ A.i.getD k 0 < y.length then A.x.getD k 0 * x.getD j 0 else 0) +
       (if A.i.getD k 0 ≠ j ∧ a = j ∧ j < y.length
          then A.x.getD k 0 * x.getD (A.i.getD k 0) 0 else 0)) := by
  unfold mirror_step
  simp only
  generalize A.i.getD k 0 = i
  generalize A.x.getD k 0 * x.getD j 0 = d1
  generalize A.x.getD k 0 * x.getD i 0 = d2
  by_cases hij : i = j
  · subst hij
    simp only [ne_eq, not_true_eq_false, if_false, false_and, add_zero]
    rw [getD_add_at]
  · simp only [ne_eq, hij, not_false_eq_true, if_true, true_and]
    rw [getD_add_at, getD_add_at, length_add_at, add_assoc]

/-- Effect of the inner loop for column `j` on every component. -/
theorem column_loop_spec {R : Type} [CommRing R] (A : Sparse R) (x : List R) (j : Nat)
    (y : List R) :
    (column_loop A x y j).length = y.length ∧
    ∀ a, (column_loop A x y j).getD a 0 = y.getD a 0 +
      ((column_entries A j).map (fun k =>
        (if a = A.i.getD k 0 ∧ A.i.getD k 0 < y.length then A.x.getD k 0 * x.getD j 0 else 0) +
        (if A.i.getD k 0 ≠ j ∧ a = j ∧ j < y.length
           then A.x.getD k 0 * x.getD (A.i.getD k 0) 0 else 0))).sum :=
  foldl_accumulate (mirror_step A x j)
    (fun n k a =>
      (if a = A.i.getD k 0 ∧ A.i.getD k 0 < n then A.x.getD k 0 * x.getD j 0 else 0) +
      (if A.i.getD k 0 ≠ j ∧ a = j ∧ j < n
         then A.x.getD k 0 * x.getD (A.i.getD k 0) 0 else 0))
    (length_mirror_step A x j) (fun y k a => getD_mirror_step A x j y k a)
    (column_entries A j) y

/-- The loop result has length `n` and its component `a` is the sum of all direct
and mirror contributions to row `a`. -/
theorem Ax_result_spec {R : Type} [CommRing R] (n : Nat) (A : Sparse R) (x : List R) :
    (Ax_result n A x).length = n ∧
    ∀ a, (Ax_result n A x).getD a 0 =
      ((List.range n).map (fun j => ((column_entries A j).map (fun k =>
        (if a = A.i.getD k 0 ∧ A.i.getD k 0 < n then A.x.getD k 0 * x.getD j 0 else 0) +
        (if A.i.getD k 0 ≠ j ∧ a = j ∧ j < n
           then A.x.getD k 0 * x.getD (A.i.getD k 0) 0 else 0))).sum)).sum := by
  have h := foldl_accumulate (column_loop A x)
    (fun n j a => ((column_entries A j).map (fun k =>
        (if a = A.i.getD k 0 ∧ A.i.getD k 0 < n then A.x.getD k 0 * x.getD j 0 else 0) +
        (if A.i.getD k 0 ≠ j ∧ a = j ∧ j < n
           then A.x.getD k 0 * x.getD (A.i.getD k 0) 0 else 0))).sum)
    (fun y j => (column_loop_spec A x j y).1) (fun y j a => (column_loop_spec A x j y).2 a)
    (List.range n) (List.replicate n 0)
  unfold Ax_result
  refine ⟨by simpa using h.1, fun a => ?_⟩
  have h2 := h.2 a
  simp only [List.length_replicate] at h2
  rw [h2]
  have : (List.replicate n (0 : R)).getD a 0 = 0 := by
    simp [List.getD_eq_getElem?_getD, List.getElem?_replicate]
    split_ifs <;> rfl
  rw [this, zero_add]



/-- Exchange of two nested list sums. -/
theorem sum_map_swap {R α β : Type} [CommRing R] (l1 : List α) (l2 : List β)
    (f : α → β → R) :
    (l1.map (fun a => (l2.map (fun b => f a b)).sum)).sum =
      (l2.map (fun b => (l1.map (fun a => f a b)).sum)).sum := by
  induction l1 with
  | nil => simp
  | cons a l1 ih => simp [List.sum_map_add, ih]

/-- A sum over `0..n-1` of terms that vanish except at `a` is the term at `a`. -/
theorem sum_range_ite_eq {R : Type} [CommRing R] (n a : Nat) (g : Nat → R) (ha : a < n) :
    ((List.range n).map (fun j => if j = a then g j else 0)).sum = g a := by
  induction n with
  | zero => omega
  | succ n ih =>
    rw [List.range_succ, List.map_append, List.sum_append]
    by_cases h : a = n
    · subst h
      have h0 : ((List.range a).map (fun j => if j = a then g j else 0)).sum = 0 := by
        apply List.sum_eq_zero
        intro r hr
        simp only [List.mem_map, List.mem_range] at hr
        obtain ⟨j, hj, rfl⟩ := hr
        simp [Nat.ne_of_lt hj]
      simp [h0]
    · have h1 := ih (by omega)
      simp [h1, Ne.symm h]

/-- Sums of two maps that agree on the list are equal. -/
theorem sum_map_congr {R α : Type} [CommRing R] (l : List α) (f g : α → R)
    (h : ∀ a ∈ l, f a = g a) : (l.map f).sum = (l.map g).sum := by
  rw [List.map_congr_left h]

/-- Mirror contributions to row `a`: the entries below the diagonal in column
`a`, each times the component of `x` at its row. -/
theorem mirror_sum_eq {R : Type} [CommRing R] (n : Nat) (A : Sparse R) (x : List R)
    (hA : LowerCSC n A) (a : Nat) (ha : a < n) :
    ((List.range n).map (fun j => if a < j then stored A j a * x.getD j 0 else 0)).sum =
      ((column_entries A a).map (fun k =>
        if A.i.getD k 0 ≠ a then A.x.getD k 0 * x.getD (A.i.getD k 0) 0 else 0)).sum := by
  have h1 : ∀ j ∈ List.range n, (if a < j then stored A j a * x.getD j 0 else 0) =
      ((column_entries A a).map (fun k =>
        if j = A.i.getD k 0 then (if a < j then A.x.getD k 0 * x.getD j 0 else 0) else 0)).sum := by
    intro j _
    by_cases haj : a < j
    · simp only [haj, if_true, stored]
      rw [← List.sum_map_mul_right]
      apply sum_map_congr
      intro k _
      by_cases hk : A.i.getD k 0 = j
      · simp [-List.getD_eq_getElem?_getD, hk]
      · simp [-List.getD_eq_getElem?_getD, hk, Ne.symm hk]
    · simp only [haj, if_false]
      symm
      apply List.sum_eq_zero
      intro r hr
      simp only [List.mem_map] at hr
      obtain ⟨k, _, rfl⟩ := hr
      simp [-List.getD_eq_getElem?_getD]
  rw [sum_map_congr _ _ _ h1, sum_map_swap]
  apply sum_map_congr
  intro k hk
  obtain ⟨_, _, hge, hlt⟩ := hA.2 a ha k hk
  rw [sum_range_ite_eq n (A.i.getD k 0)
    (fun j => if a < j then A.x.getD k 0 * x.getD j 0 else 0) hlt]
  by_cases h : A.i.getD k 0 = a
  · simp [-List.getD_eq_getElem?_getD, h]
  · have : a < A.i.getD k 0 := lt_of_le_of_ne hge (Ne.symm h)
    simp [-List.getD_eq_getElem?_getD, h, this]

/-- Component `a` of the loop result, as a sum over the full symmetric matrix. -/
theorem Ax_result_component {R : Type} [CommRing R] (n : Nat) (A : Sparse R) (x : List R)
    (hA : LowerCSC n A) (a : Nat) (ha : a < n) :
    (Ax_result n A x).getD a 0 =
      ((List.range n).map (fun j => sym_entry A a j * x.getD j 0)).sum := by
  rw [(Ax_result_spec n A x).2 a]
  have hL : ∀ j ∈ List.range n, ((column_entries A j).map (fun k =>
        (if a = A.i.getD k 0 ∧ A.i.getD k 0 < n then A.x.getD k 0 * x.getD j 0 else 0) +
        (if A.i.getD k 0 ≠ j ∧ a = j ∧ j < n
           then A.x.getD k 0 * x.getD (A.i.getD k 0) 0 else 0))).sum =
      (if j ≤ a then stored A a j * x.getD j 0 else 0) +
      (if j = a then ((column_entries A j).map (fun k =>
        if A.i.getD k 0 ≠ j then A.x.getD k 0 * x.getD (A.i.getD k 0) 0 else 0)).sum else 0) := by
    intro j hj
    have hjn : j < n := List.mem_range.1 hj
    rw [List.sum_map_add]
    congr 1
    · by_cases hja : j ≤ a
      · simp only [hja, if_true, stored]
        rw [← List.sum_map_mul_right]
        apply sum_map_congr
        intro k _
        by_cases hk : A.i.getD k 0 = a
        · simp [-List.getD_eq_getElem?_getD, hk, ha]
        · simp [-List.getD_eq_getElem?_getD, hk, Ne.symm hk]
      · simp only [hja, if_false]
        apply List.sum_eq_zero
        intro r hr
        simp only [List.mem_map] at hr
        obtain ⟨k, hk, rfl⟩ := hr
        obtain ⟨_, _, hge, _⟩ := hA.2 j hjn k hk
        have : a ≠ A.i.getD k 0 := by omega
        simp [-List.getD_eq_getElem?_getD, this]
    · by_cases hja : j = a
      · subst hja
        simp [-List.getD_eq_getElem?_getD, hjn]
      · simp only [hja, if_false]
        apply List.sum_eq_zero
        intro r hr
        simp only [List.mem_map] at hr
        obtain ⟨k, _, rfl⟩ := hr
        simp [-List.getD_eq_getElem?_getD, Ne.symm hja]
  have hR : ∀ j ∈ List.range n, sym_entry A a j * x.getD j 0 =
      (if j ≤ a then stored A a j * x.getD j 0 else 0) +
      (if a < j then stored A j a * x.getD j 0 else 0) := by
    intro j _
    unfold sym_entry
    by_cases hja : j ≤ a
    · simp [-List.getD_eq_getElem?_getD, hja, not_lt.2 hja]
    · simp [-List.getD_eq_getElem?_getD, hja, not_le.1 hja]
  rw [sum_map_congr _ _ _ hL, sum_map_congr _ _ _ hR, List.sum_map_add, List.sum_map_add,
    mirror_sum_eq n A x hA a ha,
    sum_range_ite_eq n a (fun j => ((column_entries A j).map (fun k =>
      if A.i.getD k 0 ≠ j then A.x.getD k 0 * x.getD (A.i.getD k 0) 0 else 0)).sum) ha]

/-- Component `a` of the reference product. -/
theorem getD_sym_product {R : Type} [CommRing R] (n : Nat) (A : Sparse R) (x : List R)
    (a : Nat) (ha : a < n) :
    (sym_product n A x).getD a 0 =
      ((List.range n).map (fun j => sym_entry A a j * x.getD j 0)).sum := by
  unfold sym_product
  rw [List.getD_eq_getElem _ _ (by simpa using ha)]
  simp

/-- Two vectors of length `n` with the same components are equal. -/
theorem list_eq_of_getD {R : Type} [CommRing R] (n : Nat) (l1 l2 : List R)
    (h1 : l1.length = n) (h2 : l2.length = n)
    (h : ∀ a, a < n → l1.getD a 0 = l2.getD a 0) : l1 = l2 := by
  apply List.ext_getElem (by rw [h1, h2])
  intro a ha1 ha2
  have := h a (by omega)
  rwa [List.getD_eq_getElem _ _ ha1, List.getD_eq_getElem _ _ ha2] at this

/-- The matrix described by `sym_entry` is symmetric. -/
theorem sym_entry_comm {R : Type} [CommRing R] (A : Sparse R) (i j : Nat) :
    sym_entry A i j = sym_entry A j i := by
  unfold sym_entry
  by_cases h1 : j ≤ i
  · by_cases h2 : i ≤ j
    · have h3 : i = j := le_antisymm h2 h1
      subst h3
      rfl
    · simp [h1, h2]
  · have h2 : i ≤ j := le_of_not_le h1
    simp [h1, h2]

/-! ## C2: manual matrix-vector product -/

/-- C2: for every dimension `n`, vector `x` of length `n` and well-formed
lower-triangular compressed-column matrix, the double loop computes, in exact
arithmetic, the product of `x` with the full symmetric matrix whose entries
`(i, j)` and `(j, i)` are the sum of the values stored at `(i, j)`, `i >= j`
(diagonal entries counted once, the others once per mirror); on the lower
entries (0,0,2), (1,0,1), (1,1,3) and `x = [1, 1]` it yields `[3, 4]`. -/
theorem Ax_result_eq_sym_product {R : Type} [CommRing R] (n : Nat) (A : Sparse R)
    (x : List R) (_hx : x.length = n) (hA : LowerCSC n A) :
    Ax_result n A x = sym_product n A x ∧
    Ax_result 2 (example_A R) [1, 1] = [3, 4] := by
  constructor
  · apply list_eq_of_getD n _ _ (Ax_result_spec n A x).1 (by simp [sym_product])
    intro a ha
    rw [Ax_result_component n A x hA a ha, getD_sym_product n A x a ha]
  · simp [Ax_result, column_loop, column_entries, mirror_step, add_at, example_A,
      List.range, List.range.loop, List.range']
    norm_num

/-- Instance of `Ax_result_eq_sym_product` on the 2x2 example over the integers. -/
theorem Ax_result_eq_sym_product_witness :
    [(1 : ℤ), 1].length = 2 ∧ LowerCSC 2 (example_A ℤ) ∧
    Ax_result 2 (example_A ℤ) [1, 1] = sym_product 2 (example_A ℤ) [1, 1] ∧
    Ax_result 2 (example_A ℤ) [1, 1] = [3, 4] :=
  ⟨rfl, by decide, Ax_result_eq_sym_product 2 (example_A ℤ) [1, 1] rfl (by decide)⟩



/-! ## C10: filter and mirror rule on a fully listed symmetric matrix -/

/-- A sum over a filtered list is the sum of the guarded terms over the list. -/
theorem sum_filter_map {R α : Type} [CommRing R] (l : List α) (p : α → Bool) (f : α → R) :
    ((l.filter p).map f).sum = (l.map (fun t => if p t = true then f t else 0)).sum := by
  induction l with
  | nil => simp
  | cons t l ih =>
    by_cases h : p t = true
    · simp [List.filter_cons, h, ih]
    · simp [List.filter_cons, h, ih]

/-- Values of the filtered list at a position, as a sum over the unfiltered list. -/
theorem entries_at_lower {R : Type} [CommRing R] (entries : List (Triplet R)) (i j : Nat) :
    entries_at (lower_triplets entries) i j =
      (entries.map (fun t =>
        if t.row ≥ t.col ∧ t.row = (i : Int) ∧ t.col = (j : Int) then t.val else 0)).sum := by
  have h : lower_triplets entries = entries.filter (fun t => decide (t.row ≥ t.col)) := by
    simpa [lower_triplets] using lower_triplets_foldl entries []
  rw [h, entries_at, sum_filter_map]
  apply sum_map_congr
  intro t _
  by_cases h1 : t.row ≥ t.col
  · simp [h1]
  · simp [h1]

/-- A list symmetric as a multiset is a permutation of its transpose. -/
theorem symmetric_perm {R : Type} [DecidableEq R] (entries : List (Triplet R))
    (hs : SymmetricEntries entries) : entries.Perm (entries.map Triplet.swap) := by
  rw [List.perm_iff_count]
  intro t
  have hinj : Function.Injective (Triplet.swap : Triplet R → Triplet R) := by
    intro s1 s2 h
    obtain ⟨r1, c1, v1⟩ := s1
    obtain ⟨r2, c2, v2⟩ := s2
    simp only [Triplet.swap, Triplet.mk.injEq] at h
    simp [h.1, h.2.1, h.2.2]
  have h2 : t = t.swap.swap := rfl
  rw [hs t]
  conv_rhs => rw [h2]
  rw [List.count_map_of_injective _ _ hinj]

/-- A list that is a permutation of its transpose is symmetric as a multiset. -/
theorem symmetricEntries_of_perm {R : Type} [DecidableEq R] (entries : List (Triplet R))
    (h : entries.Perm (entries.map Triplet.swap)) : SymmetricEntries entries := by
  intro t
  have hinj : Function.Injective (Triplet.swap : Triplet R → Triplet R) := by
    intro s1 s2 h
    obtain ⟨r1, c1, v1⟩ := s1
    obtain ⟨r2, c2, v2⟩ := s2
    simp only [Triplet.swap, Triplet.mk.injEq] at h
    simp [h.1, h.2.1, h.2.2]
  have h1 := List.perm_iff_count.1 h t.swap
  rw [List.count_map_of_injective _ _ hinj] at h1
  exact h1.symm

/-- The plain product has length `n` and its component `a` is the sum of
`val * x[col]` over the entries of row `a`. -/
theorem entries_product_component {R : Type} [CommRing R] (n : Nat)
    (entries : List (Triplet R)) (x : List R) (hr : InRange n entries) :
    (entries_product n entries x).length = n ∧
    ∀ a, a < n → (entries_product n entries x).getD a 0 =
      (entries.map (fun t =>
        if t.row = (a : Int) then t.val * x.getD t.col.toNat 0 else 0)).sum := by
  have h := foldl_accumulate
    (fun (y : List R) (t : Triplet R) => add_at y t.row.toNat (t.val * x.getD t.col.toNat 0))
    (fun n t a => if a = t.row.toNat ∧ t.row.toNat < n
      then t.val * x.getD t.col.toNat 0 else 0)
    (fun y t => length_add_at y _ _) (fun y t a => getD_add_at y _ a _)
    entries (List.replicate n 0)
  unfold entries_product
  refine ⟨by simpa using h.1, fun a ha => ?_⟩
  have h2 := h.2 a
  simp only [List.length_replicate] at h2
  rw [h2]
  have h0 : (List.replicate n (0 : R)).getD a 0 = 0 := by
    simp [List.getD_eq_getElem?_getD, List.getElem?_replicate, ha]
  rw [h0, zero_add]
  apply sum_map_congr
  intro t ht
  obtain ⟨h1, h2, _, _⟩ := hr t ht
  have e1 : (a = t.row.toNat ∧ t.row.toNat < n) ↔ t.row = (a : Int) := by omega
  simp only [e1]

/-- Contribution of one in-range entry to row `a` of the symmetric product built
from the filtered list: the entry itself when it lies in row `a` on or below
the diagonal, and its mirror image when it lies in column `a` below the
diagonal. -/
theorem sym_terms_of_entry {R : Type} [CommRing R] (n a : Nat) (x : List R)
    (t : Triplet R) (h0r : 0 ≤ t.row) (hrn : t.row < n) (h0c : 0 ≤ t.col) (hcn : t.col < n) :
    ((List.range n).map (fun j =>
      (if j ≤ a
        then (if t.row ≥ t.col ∧ t.row = (a : Int) ∧ t.col = (j : Int) then t.val else 0)
        else (if t.row ≥ t.col ∧ t.row = (j : Int) ∧ t.col = (a : Int) then t.val else 0))
      * x.getD j 0)).sum =
      (if t.row = (a : Int) ∧ t.col ≤ (a : Int) then t.val * x.getD t.col.toNat 0 else 0) +
      (if t.col = (a : Int) ∧ (a : Int) < t.row then t.val * x.getD t.row.toNat 0 else 0) := by
  obtain ⟨row, col, v⟩ := t
  simp only at h0r hrn h0c hcn ⊢
  lift row to ℕ using h0r
  lift col to ℕ using h0c
  have hrn2 : row < n := by exact_mod_cast hrn
  have hcn2 : col < n := by exact_mod_cast hcn
  simp only [Int.toNat_ofNat, Nat.cast_inj, Nat.cast_le, Nat.cast_lt, ge_iff_le]
  have hterm : ∀ j ∈ List.range n,
      (if j ≤ a then (if col ≤ row ∧ row = a ∧ col = j then v else 0)
        else (if col ≤ row ∧ row = j ∧ col = a then v else 0)) * x.getD j 0 =
      (if j = col then (if row = a ∧ col ≤ a then v * x.getD j 0 else 0) else 0) +
      (if j = row then (if col = a ∧ a < row then v * x.getD j 0 else 0) else 0) := by
    intro j _
    split_ifs <;> first | omega | simp
  rw [sum_map_congr _ _ _ hterm, List.sum_map_add,
    sum_range_ite_eq n col (fun j => if row = a ∧ col ≤ a then v * x.getD j 0 else 0) hcn2,
    sum_range_ite_eq n row (fun j => if col = a ∧ a < row then v * x.getD j 0 else 0) hrn2]



/-- C10: for every in-range entry list that is symmetric as a multiset, every
vector `x` of length `n` and every compressed-column matrix holding the
lower-triangle filter of the list, the mirror-accumulating loop gives, in exact
arithmetic, the plain product of the unfiltered list with `x`. -/
theorem filter_mirror_eq_entries_product {R : Type} [CommRing R] [DecidableEq R] (n : Nat)
    (entries : List (Triplet R)) (x : List R) (A : Sparse R) (_hx : x.length = n)
    (hr : InRange n entries) (hs : SymmetricEntries entries)
    (hA : Holds n A (lower_triplets entries)) :
    Ax_result n A x = entries_product n entries x := by
  apply list_eq_of_getD n _ _ (Ax_result_spec n A x).1
    (entries_product_component n entries x hr).1
  intro a ha
  rw [Ax_result_component n A x hA.1 a ha, (entries_product_component n entries x hr).2 a ha]
  have hterm : ∀ j ∈ List.range n, sym_entry A a j * x.getD j 0 =
      (entries.map (fun t =>
        (if j ≤ a
          then (if t.row ≥ t.col ∧ t.row = (a : Int) ∧ t.col = (j : Int) then t.val else 0)
          else (if t.row ≥ t.col ∧ t.row = (j : Int) ∧ t.col = (a : Int) then t.val else 0))
        * x.getD j 0)).sum := by
    intro j hj
    have hjn : j < n := List.mem_range.1 hj
    unfold sym_entry
    by_cases h1 : j ≤ a
    · simp only [h1, if_true]
      rw [hA.2 a ha j hjn, entries_at_lower, ← List.sum_map_mul_right]
    · simp only [h1, if_false]
      rw [hA.2 j hjn a ha, entries_at_lower, ← List.sum_map_mul_right]
  rw [sum_map_congr _ _ _ hterm, sum_map_swap,
    sum_map_congr _ _ _ (fun t ht =>
      sym_terms_of_entry n a x t (hr t ht).1 (hr t ht).2.1 (hr t ht).2.2.1 (hr t ht).2.2.2),
    List.sum_map_add]
  have hperm := symmetric_perm entries hs
  have h2 := (hperm.map (fun t : Triplet R =>
    if t.col = (a : Int) ∧ (a : Int) < t.row then t.val * x.getD t.row.toNat 0 else 0)).sum_eq
  rw [h2, List.map_map, ← List.sum_map_add]
  apply sum_map_congr
  intro t _
  simp only [Function.comp, Triplet.swap]
  split_ifs <;> first | omega | simp

/-- Instance of `filter_mirror_eq_entries_product` on a fully listed symmetric 2x2
matrix over the integers. -/
theorem filter_mirror_eq_entries_product_witness :
    InRange 2 example_entries ∧ SymmetricEntries example_entries ∧
    Holds 2 (example_A ℤ) (lower_triplets example_entries) ∧
    Ax_result 2 (example_A ℤ) [1, 1] = entries_product 2 example_entries [1, 1] :=
  ⟨by decide, symmetricEntries_of_perm _ (by decide), by decide,
    filter_mirror_eq_entries_product 2 example_entries [1, 1] (example_A ℤ) rfl (by decide)
      (symmetricEntries_of_perm _ (by decide)) (by decide)⟩

end CholmodDemo
